import Mathlib

/- Verification of the Signal/Target notification system and the
command interpreters of the portfolio site.

Shallow embedding of:
  * src/context/SignalContext.tsx and the top-level application component
    (registerTarget / emitSignal / hitTarget and their timers),
  * src/components/features/SignalPacket.tsx (target choice, path stages,
    hit timers),
  * src/components/features/SkillNode.tsx and TimelineItem.tsx (tested ids),
  * the Terminal component's handleCommand and the VimCommandPalette's
    handleSubmit.

Time is modelled as exact rational "time-units" (1 time-unit = 1000 ms of
setTimeout); timers fire exactly at their scheduled instants. -/

/- Rational arithmetic is used for exact evaluation of concrete runs
below; the base operations are restored to their definitional
behaviour for that purpose. -/
attribute [local semireducible] Rat.mul Rat.add Rat.sub Rat.inv Rat.ofScientific

/- ------------------------------------------------------------------
Basic geometry.  Page coordinates are rationals. -/

/-- A point in page coordinates. -/
structure Point where
  x : ℚ
  y : ℚ
deriving DecidableEq, Repr

/-- A DOMRect as consumed by `emitSignal` (left, top, width, height). -/
structure Rect where
  left : ℚ
  top : ℚ
  width : ℚ
  height : ℚ
deriving DecidableEq, Repr

/-- The current (window.scrollX, window.scrollY) offset. -/
structure Scroll where
  x : ℚ
  y : ℚ
deriving DecidableEq, Repr

/- ------------------------------------------------------------------
Target registry (SignalContext.tsx / index.tsx lines 67-75).
Handles are opaque; only identity comparison (`includes`) is used. -/

/-- The two recognized target categories (the closed union type
`'skills' | 'trace'` of `registerTarget`). -/
inductive Category where
  | skills
  | trace
deriving DecidableEq, Repr

/-- The literal string of each category name. -/
def categoryName : Category → String
  | .skills => "skills"
  | .trace => "trace"

/-- `TargetRegistry`: one ordered collection of handles per category
(index.tsx line 68: `{ skills: [], trace: [] }`). -/
structure TargetRegistry (α : Type) where
  skills : List α
  trace : List α
deriving DecidableEq, Repr

/-- Projection of a registry onto one category's collection. -/
def TargetRegistry.category (r : TargetRegistry α) : Category → List α
  | .skills => r.skills
  | .trace => r.trace

/-- index.tsx lines 71-75: `registerTarget(type, ref)` pushes the handle
onto the category's collection unless `includes` already finds it. -/
def registerTarget [DecidableEq α] (c : Category) (a : α)
    (r : TargetRegistry α) : TargetRegistry α :=
  match c with
  | .skills => if a ∈ r.skills then r else { r with skills := r.skills ++ [a] }
  | .trace => if a ∈ r.trace then r else { r with trace := r.trace ++ [a] }

/-- The empty registry the application starts from (index.tsx line 68). -/
def emptyRegistry (α : Type) : TargetRegistry α := ⟨[], []⟩

/- ------------------------------------------------------------------
Claim C2: registerTarget is an idempotent append. -/

/-- Claim C2: for every category and handle, `registerTarget` is an
idempotent append: registering twice equals registering once, a handle
already present makes the call a no-op, an absent handle is appended at
the end, and the collection length is unchanged by the second call. -/
theorem registerTarget_idempotent_append [DecidableEq α]
    (c : Category) (a : α) (r : TargetRegistry α) :
    registerTarget c a (registerTarget c a r) = registerTarget c a r ∧
    (a ∈ r.category c → registerTarget c a r = r) ∧
    (a ∉ r.category c →
      (registerTarget c a r).category c = r.category c ++ [a]) ∧
    ((registerTarget c a (registerTarget c a r)).category c).length
      = ((registerTarget c a r).category c).length := by
  have hmem : a ∈ (registerTarget c a r).category c := by
    cases c <;> simp only [registerTarget, TargetRegistry.category] <;>
      split <;> simp_all
  refine ⟨?_, ?_, ?_, ?_⟩
  · cases c <;> simp only [registerTarget, TargetRegistry.category] at hmem ⊢ <;>
      simp [hmem]
  · intro h
    cases c <;> simp only [TargetRegistry.category] at h <;> simp [registerTarget, h]
  · intro h
    cases c <;> simp only [TargetRegistry.category] at h ⊢ <;>
      simp [registerTarget, h]
  · cases c <;> simp only [registerTarget, TargetRegistry.category] at hmem ⊢ <;>
      simp [hmem]

/-- Witness for C2 at a concrete registry: registering handle 5 twice in
the skills category of ⟨[1], [2]⟩ equals registering it once. -/
theorem registerTarget_idempotent_append_witness :
    registerTarget Category.skills 5
        (registerTarget Category.skills 5 (⟨[1], [2]⟩ : TargetRegistry ℕ))
      = registerTarget Category.skills 5 (⟨[1], [2]⟩ : TargetRegistry ℕ) :=
  (registerTarget_idempotent_append Category.skills 5 ⟨[1], [2]⟩).1

/- ------------------------------------------------------------------
SignalPacket (SignalPacket.tsx): random target choice, hit identifiers,
and the three-stage path. -/

/-- SignalPacket.tsx lines 20-21: `Math.floor(Math.random() * length)`.
`r` is the value drawn from the random source (in [0,1)). -/
def pickIdx (r : ℚ) (n : ℕ) : ℤ := ⌊r * (n : ℚ)⌋

/-- `targets.cat[Math.floor(Math.random() * targets.cat.length)]`:
JavaScript indexing yields `undefined` (here `none`) outside the range. -/
def chosen (l : List α) (r : ℚ) : Option α :=
  if 0 ≤ pickIdx r l.length then l.get? (pickIdx r l.length).toNat else none

/-- JavaScript `Array.prototype.indexOf`: the first index holding the
element, or -1 when absent (SignalPacket.tsx lines 46 and 53). -/
def jsIndexOfAux [DecidableEq α] (a : α) : List α → ℕ → ℤ
  | [], _ => -1
  | b :: bs, i => if b = a then (i : ℤ) else jsIndexOfAux a bs (i + 1)

/-- `l.indexOf(a)` starting from index 0. -/
def jsIndexOf [DecidableEq α] (l : List α) (a : α) : ℤ :=
  jsIndexOfAux a l 0

/-- The identifier the first SignalPacket timer raises for the skills
handle at index `i` (SignalPacket.tsx line 47). -/
def skillHitId (i : ℕ) : String := "skill-" ++ toString i

/-- The identifier the second SignalPacket timer raises for the trace
handle at index `i` (SignalPacket.tsx line 54). -/
def traceHitId (i : ℕ) : String := "trace-" ++ toString i

/-- SignalPacket.tsx lines 42-49, the 1.0 time-unit timer: if the chosen
skills handle exists and `indexOf` finds it, raise `skill-<idx>`. -/
def packetSkillHit [DecidableEq α] (skills : List α) (r : ℚ) : Option String :=
  match chosen skills r with
  | none => none
  | some tgt =>
      let idx := jsIndexOf skills tgt
      if idx = -1 then none else some (skillHitId idx.toNat)

/-- SignalPacket.tsx lines 51-56, the 2.0 time-unit timer: if the chosen
trace handle exists and `indexOf` finds it, raise `trace-<idx>`. -/
def packetTraceHit [DecidableEq α] (trace : List α) (r : ℚ) : Option String :=
  match chosen trace r with
  | none => none
  | some tgt =>
      let idx := jsIndexOf trace tgt
      if idx = -1 then none else some (traceHitId idx.toNat)

/-- The identifier a SkillNode tests against the hit set
(SkillNode.tsx line 21: `skill-<index>`). -/
def skillNodeId (index : ℕ) : String := "skill-" ++ toString index

/-- The identifier a TimelineItem tests against the hit set
(TimelineItem.tsx line 14: `trace-<index>`). -/
def timelineItemId (index : ℕ) : String := "trace-" ++ toString index

/-- SignalPacket.tsx lines 24-31 `getPos`: an unmounted or missing handle
resolves to (0,0); otherwise the resolver's page-coordinate point.
`resolve` models `getBoundingClientRect` center plus scroll offset. -/
def getPos (resolve : α → Option Point) (t : Option α) : Point :=
  match t with
  | none => ⟨0, 0⟩
  | some h =>
      match resolve h with
      | none => ⟨0, 0⟩
      | some p => p

/-- SignalPacket.tsx line 38: if the midpoint's y is 0, substitute the
point 800 units below the start. -/
def safeMid (start mid : Point) : Point :=
  if mid.y = 0 then ⟨start.x, start.y + 800⟩ else mid

/-- SignalPacket.tsx line 39: if the endpoint's y is 0, substitute the
point 800 units below the (safe) midpoint. -/
def safeEnd (sm finish : Point) : Point :=
  if finish.y = 0 then ⟨sm.x, sm.y + 800⟩ else finish

/-- The three animation stages of one packet (SignalPacket.tsx
lines 33-39): start from the signal's origin plus scroll, then the safe
midpoint, then the safe endpoint. `startX startY` are the emitted
signal's origin. -/
def packetStages [DecidableEq α] (reg : TargetRegistry α)
    (resolve : α → Option Point) (r1 r2 : ℚ)
    (startX startY : ℚ) (sc : Scroll) : Point × Point × Point :=
  let start : Point := ⟨startX + sc.x, startY + sc.y⟩
  let mid := getPos resolve (chosen reg.skills r1)
  let finish := getPos resolve (chosen reg.trace r2)
  let sm := safeMid start mid
  (start, sm, safeEnd sm finish)

/-- SignalPacket.tsx line 71: the transition's total duration,
2.5 time-units. -/
def packetDuration : ℚ := 5 / 2

/-- SignalPacket.tsx line 72: the keyframe times (the midpoint is reached
at 40% of elapsed time). -/
def packetTimes : List ℚ := [0, 2 / 5, 1]

/- ------------------------------------------------------------------
Helper lemmas on the random choice and indexOf. -/

/-- With a draw in [0,1) and a nonempty collection,
`Math.floor(r * length)` is in range. -/
theorem pickIdx_bounds {r : ℚ} {n : ℕ} (h0 : 0 ≤ r) (h1 : r < 1) (hn : 0 < n) :
    0 ≤ pickIdx r n ∧ pickIdx r n < n := by
  constructor
  · exact Int.floor_nonneg.mpr (mul_nonneg h0 (by positivity))
  · have hn' : (0 : ℚ) < n := by exact_mod_cast hn
    exact Int.floor_lt.mpr (by
      calc r * (n : ℚ) < 1 * n := by exact mul_lt_mul_of_pos_right h1 hn'
        _ = n := one_mul _)

/-- With a draw in [0,1) and a nonempty collection, `chosen` returns the
element at the floored index, which is in range. -/
theorem chosen_eq_get? {l : List α} {r : ℚ} (h0 : 0 ≤ r) (h1 : r < 1)
    (hl : 0 < l.length) :
    chosen l r = l.get? (pickIdx r l.length).toNat ∧
    (pickIdx r l.length).toNat < l.length := by
  obtain ⟨hge, hlt⟩ := pickIdx_bounds h0 h1 hl
  refine ⟨?_, by omega⟩
  simp [chosen, hge]

/-- A successful `chosen` always reads a real position of the list. -/
theorem chosen_some {l : List α} {r : ℚ} {a : α} (h : chosen l r = some a) :
    ∃ i, i < l.length ∧ l.get? i = some a := by
  unfold chosen at h
  split at h
  · obtain ⟨hw, -⟩ := List.get?_eq_some.mp h
    exact ⟨(pickIdx r l.length).toNat, hw, h⟩
  · simp at h

/-- On a duplicate-free list, `indexOf` applied to the element at
position `i` returns `i` (offset version). -/
theorem jsIndexOfAux_get [DecidableEq α] :
    ∀ (l : List α) (i : ℕ) (h : i < l.length) (k : ℕ), l.Nodup →
      jsIndexOfAux (l.get ⟨i, h⟩) l k = (k : ℤ) + i
  | [], i, h, _, _ => by simp at h
  | b :: bs, 0, _, k, _ => by simp [jsIndexOfAux]
  | b :: bs, i + 1, h, k, hnd => by
      have hi : i < bs.length := by simpa using h
      have hb : b ∉ bs := (List.nodup_cons.mp hnd).1
      have hne : b ≠ bs.get ⟨i, hi⟩ := fun he => hb (by
        rw [he]; exact List.get_mem bs i hi)
      have := jsIndexOfAux_get bs i hi (k + 1) (List.nodup_cons.mp hnd).2
      simp only [List.get, jsIndexOfAux, hne, if_false]
      rw [this]
      push_cast
      ring

/-- On a duplicate-free list, `indexOf` recovers the position. -/
theorem jsIndexOf_get [DecidableEq α] (l : List α) (i : ℕ) (h : i < l.length)
    (hnd : l.Nodup) : jsIndexOf l (l.get ⟨i, h⟩) = (i : ℤ) := by
  simpa using jsIndexOfAux_get l i h 0 hnd

/- ------------------------------------------------------------------
Claim C1: the form of hit identifiers. -/

/-- Claim C1 as stated is false: the identifier the SignalPacket raises
for the skills handle at position 0 is "skill-0", which is not
`<category>-<index>` for the category name "skills" (nor "trace"): the
skills prefix is the singular "skill". -/
theorem skill_hit_id_not_category_name :
    packetSkillHit (α := String) ["h0"] 0 = some "skill-0" ∧
    skillHitId 0 ≠ categoryName Category.skills ++ "-" ++ toString 0 ∧
    skillHitId 0 ≠ categoryName Category.trace ++ "-" ++ toString 0 := by
  refine ⟨by decide, by decide, by decide⟩

/-- Claim C1 (amended): every hit identifier raised by a SignalPacket
timer is `skill-<i>` (skills category, singular prefix) or `trace-<i>`,
where `i` is the chosen handle's position in that category's
registration order, and these are exactly the identifiers the display
components (SkillNode, TimelineItem) test. -/
theorem packet_hit_ids_match_display_ids [DecidableEq α]
    (skills trace : List α) (r1 r2 : ℚ)
    (hs : skills.Nodup) (ht : trace.Nodup) :
    (∀ s, packetSkillHit skills r1 = some s →
      ∃ i, i < skills.length ∧ chosen skills r1 = skills.get? i ∧
        s = skillHitId i ∧ s = skillNodeId i) ∧
    (∀ s, packetTraceHit trace r2 = some s →
      ∃ j, j < trace.length ∧ chosen trace r2 = trace.get? j ∧
        s = traceHitId j ∧ s = timelineItemId j) := by
  constructor
  · intro s hsome
    unfold packetSkillHit at hsome
    cases hc : chosen skills r1 with
    | none => rw [hc] at hsome; simp at hsome
    | some tgt =>
        rw [hc] at hsome
        simp only at hsome
        obtain ⟨i, hi, hget⟩ := chosen_some hc
        obtain ⟨hw, hv⟩ := List.get?_eq_some.mp hget
        have hidx : jsIndexOf skills tgt = (i : ℤ) := by
          rw [← hv]; exact jsIndexOf_get skills i hw hs
        rw [hidx] at hsome
        have hne : (i : ℤ) ≠ -1 := by omega
        simp only [hne, if_false, Int.toNat_natCast] at hsome
        refine ⟨i, hi, hget.symm, (Option.some.inj hsome).symm,
          (Option.some.inj hsome).symm.trans rfl⟩
  · intro s hsome
    unfold packetTraceHit at hsome
    cases hc : chosen trace r2 with
    | none => rw [hc] at hsome; simp at hsome
    | some tgt =>
        rw [hc] at hsome
        simp only at hsome
        obtain ⟨j, hj, hget⟩ := chosen_some hc
        obtain ⟨hw, hv⟩ := List.get?_eq_some.mp hget
        have hidx : jsIndexOf trace tgt = (j : ℤ) := by
          rw [← hv]; exact jsIndexOf_get trace j hw ht
        rw [hidx] at hsome
        have hne : (j : ℤ) ≠ -1 := by omega
        simp only [hne, if_false, Int.toNat_natCast] at hsome
        refine ⟨j, hj, hget.symm, (Option.some.inj hsome).symm,
          (Option.some.inj hsome).symm.trans rfl⟩

/-- Witness for the amended C1: with registered skills ["a", "b"] and a
draw of 1/2, the raised identifier is "skill-1", the chosen handle's
position is 1, and a SkillNode at index 1 tests exactly this id. -/
theorem packet_hit_ids_match_display_ids_witness :
    ∃ i, i < (["a", "b"] : List String).length ∧
      chosen ["a", "b"] (1 / 2 : ℚ) = (["a", "b"] : List String).get? i ∧
      "skill-1" = skillHitId i ∧ "skill-1" = skillNodeId i :=
  (packet_hit_ids_match_display_ids ["a", "b"] ["t"] (1 / 2) 0
    (by decide) (by decide)).1 "skill-1" (by decide)

/- ------------------------------------------------------------------
Claim C5: the random pick stays inside the registered set. -/

/-- Claim C5: with exactly 3 registered skills handles and 2 trace
handles, every draw of the random source selects the handle at an
in-range position (3 × 2 possible (mid, end) index pairs), and a
successful choice is always a member of the registered collection. -/
theorem packet_choice_in_range (reg : TargetRegistry α) (r1 r2 : ℚ)
    (h3 : reg.skills.length = 3) (h2 : reg.trace.length = 2)
    (h10 : 0 ≤ r1) (h11 : r1 < 1) (h20 : 0 ≤ r2) (h21 : r2 < 1) :
    (∃ i, i < 3 ∧ chosen reg.skills r1 = reg.skills.get? i ∧
      ∃ j, j < 2 ∧ chosen reg.trace r2 = reg.trace.get? j) ∧
    (∀ a, chosen reg.skills r1 = some a → a ∈ reg.skills) ∧
    (∀ b, chosen reg.trace r2 = some b → b ∈ reg.trace) := by
  obtain ⟨hs, hslt⟩ := chosen_eq_get? (l := reg.skills) h10 h11 (by omega)
  obtain ⟨htr, htlt⟩ := chosen_eq_get? (l := reg.trace) h20 h21 (by omega)
  refine ⟨⟨(pickIdx r1 reg.skills.length).toNat, by omega, hs,
    (pickIdx r2 reg.trace.length).toNat, by omega, htr⟩, ?_, ?_⟩
  · intro a ha
    obtain ⟨i, _, hg⟩ := chosen_some ha
    exact List.get?_mem hg
  · intro b hb
    obtain ⟨j, _, hg⟩ := chosen_some hb
    exact List.get?_mem hg

/-- Witness for C5: a concrete registry of 3 skills and 2 trace handles
with draws 2/3 and 1/3. -/
theorem packet_choice_in_range_witness :
    (∃ i, i < 3 ∧
      chosen (⟨[10, 11, 12], [20, 21]⟩ : TargetRegistry ℕ).skills (2 / 3)
        = (⟨[10, 11, 12], [20, 21]⟩ : TargetRegistry ℕ).skills.get? i ∧
      ∃ j, j < 2 ∧
        chosen (⟨[10, 11, 12], [20, 21]⟩ : TargetRegistry ℕ).trace (1 / 3)
          = (⟨[10, 11, 12], [20, 21]⟩ : TargetRegistry ℕ).trace.get? j) ∧
    (∀ a, chosen (⟨[10, 11, 12], [20, 21]⟩ : TargetRegistry ℕ).skills (2 / 3)
      = some a → a ∈ (⟨[10, 11, 12], [20, 21]⟩ : TargetRegistry ℕ).skills) ∧
    (∀ b, chosen (⟨[10, 11, 12], [20, 21]⟩ : TargetRegistry ℕ).trace (1 / 3)
      = some b → b ∈ (⟨[10, 11, 12], [20, 21]⟩ : TargetRegistry ℕ).trace) :=
  packet_choice_in_range ⟨[10, 11, 12], [20, 21]⟩ (2 / 3) (1 / 3)
    (by decide) (by decide) (by decide) (by decide) (by decide) (by decide)

/- ------------------------------------------------------------------
Claim C6: fallback endpoint when the trace category is unusable. -/

/-- Claim C6: when the trace category is empty, or the chosen trace
handle cannot be resolved to a position, the computed endpoint stage is
exactly 800 units directly below the midpoint stage (same x, y + 800),
and the animation duration is still exactly 2.5 time-units. -/
theorem fallback_endpoint_below_midpoint [DecidableEq α]
    (reg : TargetRegistry α) (resolve : α → Option Point) (r1 r2 : ℚ)
    (startX startY : ℚ) (sc : Scroll)
    (hend : chosen reg.trace r2 = none ∨
      ∃ h, chosen reg.trace r2 = some h ∧ resolve h = none) :
    (packetStages reg resolve r1 r2 startX startY sc).2.2
      = ⟨(packetStages reg resolve r1 r2 startX startY sc).2.1.x,
         (packetStages reg resolve r1 r2 startX startY sc).2.1.y + 800⟩ ∧
    packetDuration = 5 / 2 := by
  have hfin : getPos resolve (chosen reg.trace r2) = ⟨0, 0⟩ := by
    rcases hend with h | ⟨a, ha, hr⟩
    · rw [h]; rfl
    · rw [ha]; simp [getPos, hr]
  refine ⟨?_, rfl⟩
  simp only [packetStages, hfin, safeEnd]
  rfl

/-- Witness for C6: an empty trace category sends the endpoint 800 units
below the midpoint. -/
theorem fallback_endpoint_below_midpoint_witness :
    (packetStages (⟨["s"], []⟩ : TargetRegistry String)
        (fun _ => some ⟨30, 40⟩) 0 0 1 2 ⟨0, 0⟩).2.2
      = ⟨(packetStages (⟨["s"], []⟩ : TargetRegistry String)
            (fun _ => some ⟨30, 40⟩) 0 0 1 2 ⟨0, 0⟩).2.1.x,
         (packetStages (⟨["s"], []⟩ : TargetRegistry String)
            (fun _ => some ⟨30, 40⟩) 0 0 1 2 ⟨0, 0⟩).2.1.y + 800⟩ ∧
    packetDuration = 5 / 2 :=
  fallback_endpoint_below_midpoint ⟨["s"], []⟩ (fun _ => some ⟨30, 40⟩)
    0 0 1 2 ⟨0, 0⟩ (Or.inl (by decide))

/- ------------------------------------------------------------------
The Dispatcher state machine (index.tsx lines 51-102): active signals,
hit state, and their removal timers.  A run is a list of steps from the
initial state; `advance` moves time forward but may not skip a pending
timer, and a timer fires exactly at its scheduled instant, matching
setTimeout semantics with exact timing.  `serial` and `emitTime` are
ghost fields identifying the emitting call; the code's own fields are
`id`, `startX`, `startY`, `color`. -/

/-- 36^9: the resolution of the random identifier
`Math.random().toString(36).substr(2, 9)` (9 base-36 digits). -/
def idBase : ℕ := 36 ^ 9

/-- The identifier derived from the random draw `q` ∈ [0,1): its first
9 base-36 fractional digits (index.tsx line 78).  Distinct draws can
collide, and equal draws always do. -/
def idOf (q : ℚ) : ℕ := (⌊q * (idBase : ℚ)⌋).toNat

/-- A Signal record (SignalContext.tsx lines 15-20) with ghost fields
`serial` (which emit call created it) and `emitTime`. -/
structure Signal where
  serial : ℕ
  emitTime : ℚ
  id : ℕ
  startX : ℚ
  startY : ℚ
  color : String
deriving DecidableEq, Repr

/-- index.tsx lines 79-80: the origin is the center of the rect
(before any scroll offset is added). -/
def emitOrigin (rect : Rect) : Point :=
  ⟨rect.left + rect.width / 2, rect.top + rect.height / 2⟩

/-- The Dispatcher's state: current time, a ghost serial counter, the
active-signal collection, pending signal-removal timers (fire time,
signal id), the hit set, and pending hit-removal timers. -/
structure DState where
  now : ℚ
  nextSerial : ℕ
  signals : List Signal
  sTimers : List (ℚ × ℕ)
  hits : List String
  hTimers : List (ℚ × String)
deriving DecidableEq, Repr

/-- One step of a session: time advance, an `emitSignal` call (with the
random draw for its id), a signal-removal timer firing, a `hitTarget`
call, or a hit-removal timer firing. -/
inductive Step where
  | advance (t : ℚ)
  | emit (rect : Rect) (color : String) (draw : ℚ)
  | fireSignalTimer (ft : ℚ) (x : ℕ)
  | callHit (id : String)
  | fireHitTimer (ft : ℚ) (x : String)
deriving DecidableEq, Repr

/-- JavaScript `Set.prototype.add`: append unless present. -/
def setAdd [DecidableEq β] (l : List β) (b : β) : List β :=
  if b ∈ l then l else l ++ [b]

/-- When a step may occur: time only moves forward and never skips a
pending timer; a timer fires exactly at its scheduled time; a draw is a
`Math.random()` value in [0,1). -/
def validStep (σ : DState) : Step → Prop
  | .advance t => σ.now ≤ t ∧ (∀ p ∈ σ.sTimers, t ≤ p.1) ∧
      (∀ p ∈ σ.hTimers, t ≤ p.1)
  | .emit _ _ draw => 0 ≤ draw ∧ draw < 1
  | .fireSignalTimer ft x => (ft, x) ∈ σ.sTimers ∧ ft = σ.now
  | .callHit _ => True
  | .fireHitTimer ft x => (ft, x) ∈ σ.hTimers ∧ ft = σ.now

instance (σ : DState) (s : Step) : Decidable (validStep σ s) := by
  cases s <;> simp only [validStep] <;> infer_instance

/-- The state transition.  `emit` (index.tsx lines 77-87) appends a
signal whose origin is the rect's center and schedules its removal
2.5 time-units later; the removal filters out every signal carrying the
id.  `callHit` (index.tsx lines 89-102) adds the id to the hit set and
schedules its removal 0.5 time-units later; the removal deletes the id. -/
def applyStep (σ : DState) : Step → DState
  | .advance t => { σ with now := t }
  | .emit rect color draw =>
      { σ with
        nextSerial := σ.nextSerial + 1,
        signals := σ.signals ++ [⟨σ.nextSerial, σ.now, idOf draw,
          (emitOrigin rect).x, (emitOrigin rect).y, color⟩],
        sTimers := σ.sTimers ++ [(σ.now + 5 / 2, idOf draw)] }
  | .fireSignalTimer ft x =>
      { σ with signals := σ.signals.filter (fun s => s.id != x),
               sTimers := σ.sTimers.erase (ft, x) }
  | .callHit i =>
      { σ with hits := setAdd σ.hits i,
               hTimers := σ.hTimers ++ [(σ.now + 1 / 2, i)] }
  | .fireHitTimer ft x =>
      { σ with hits := σ.hits.filter (fun y => y != x),
               hTimers := σ.hTimers.erase (ft, x) }

/-- The state at application start: time 0, nothing active. -/
def initState : DState := ⟨0, 0, [], [], [], []⟩

/-- Execute a list of steps. -/
def execRun (σ : DState) (l : List Step) : DState := l.foldl applyStep σ

/-- A run is valid when every step is valid in the state it meets. -/
def runValid : DState → List Step → Prop
  | _, [] => True
  | σ, s :: rest => validStep σ s ∧ runValid (applyStep σ s) rest

instance instRunValidDec : (σ : DState) → (l : List Step) →
    Decidable (runValid σ l)
  | _, [] => isTrue trivial
  | σ, s :: rest =>
      haveI := instRunValidDec (applyStep σ s) rest
      inferInstanceAs (Decidable (validStep σ s ∧
        runValid (applyStep σ s) rest))

/-- A state the session can reach from the initial state. -/
def Reachable (σ : DState) : Prop :=
  ∃ l, runValid initState l ∧ execRun initState l = σ

/-- The ids drawn by the emit calls of a run. -/
def emitIds : List Step → List ℕ
  | [] => []
  | .emit _ _ d :: rest => idOf d :: emitIds rest
  | _ :: rest => emitIds rest

/- ------------------------------------------------------------------
Run decomposition lemmas. -/

/-- Executing an appended run executes the pieces in order. -/
theorem execRun_append (σ : DState) (l1 l2 : List Step) :
    execRun σ (l1 ++ l2) = execRun (execRun σ l1) l2 :=
  List.foldl_append _ _ _ _

/-- Validity of an appended run splits at the junction. -/
theorem runValid_append (l1 l2 : List Step) :
    ∀ σ, runValid σ (l1 ++ l2) ↔
      runValid σ l1 ∧ runValid (execRun σ l1) l2 := by
  induction l1 with
  | nil => intro σ; simp [runValid, execRun]
  | cons s rest ih =>
      intro σ
      constructor
      · rintro ⟨h1, h2⟩
        simp only [List.append_eq] at h2
        rw [ih] at h2
        exact ⟨⟨h1, h2.1⟩, h2.2⟩
      · rintro ⟨⟨h1, h2⟩, h3⟩
        exact ⟨h1, (ih _).mpr ⟨h2, h3⟩⟩

/-- A prefix of a valid run is valid. -/
theorem runValid_take (k : ℕ) : ∀ (l : List Step) (σ : DState),
    runValid σ l → runValid σ (l.take k) := by
  induction k with
  | zero => intro l σ _; simp [runValid]
  | succ k ih =>
      intro l σ h
      cases l with
      | nil => simpa using h
      | cons s rest => exact ⟨h.1, ih rest _ h.2⟩

/- ------------------------------------------------------------------
The state invariant maintained by every valid step. -/

/-- The invariant of reachable Dispatcher states: every active signal
has a pending removal timer at its emission time + 2.5 and was emitted
in the past with a fresh serial; no pending timer is overdue; every
active hit id has a pending hit-removal timer. -/
structure DInv (σ : DState) : Prop where
  sig_timer : ∀ sig ∈ σ.signals, (sig.emitTime + 5 / 2, sig.id) ∈ σ.sTimers
  sTimer_future : ∀ p ∈ σ.sTimers, σ.now ≤ p.1
  sig_past : ∀ sig ∈ σ.signals, sig.emitTime ≤ σ.now
  sig_serial : ∀ sig ∈ σ.signals, sig.serial < σ.nextSerial
  hTimer_future : ∀ p ∈ σ.hTimers, σ.now ≤ p.1
  hit_timer : ∀ x ∈ σ.hits, ∃ ft, (ft, x) ∈ σ.hTimers

/-- The initial state satisfies the invariant. -/
theorem dinv_init : DInv initState := by
  constructor <;> intro a h <;> simp [initState] at h

/-- Every valid step preserves the invariant. -/
theorem dinv_step {σ : DState} {s : Step} (hI : DInv σ) (hv : validStep σ s) :
    DInv (applyStep σ s) := by
  cases s with
  | advance t =>
      obtain ⟨hle, hs, hh⟩ := hv
      exact ⟨hI.sig_timer, fun p hp => hs p hp,
        fun sig hsig => le_trans (hI.sig_past sig hsig) hle,
        hI.sig_serial, fun p hp => hh p hp, hI.hit_timer⟩
  | emit rect color draw =>
      dsimp only [applyStep]
      refine ⟨?_, ?_, ?_, ?_, hI.hTimer_future, hI.hit_timer⟩
      · intro sig hsig
        rcases List.mem_append.mp hsig with h | h
        · exact List.mem_append_left _ (hI.sig_timer sig h)
        · simp only [List.mem_singleton] at h
          subst h
          exact List.mem_append_right _ (by simp)
      · intro p hp
        rcases List.mem_append.mp hp with h | h
        · exact hI.sTimer_future p h
        · simp only [List.mem_singleton] at h
          subst h
          simp only
          linarith
      · intro sig hsig
        rcases List.mem_append.mp hsig with h | h
        · exact hI.sig_past sig h
        · simp only [List.mem_singleton] at h
          subst h
          exact le_refl _
      · intro sig hsig
        rcases List.mem_append.mp hsig with h | h
        · exact Nat.lt_succ_of_lt (hI.sig_serial sig h)
        · simp only [List.mem_singleton] at h
          subst h
          exact Nat.lt_succ_self _
  | fireSignalTimer ft x =>
      obtain ⟨hmem, hft⟩ := hv
      dsimp only [applyStep]
      refine ⟨?_, ?_, ?_, ?_, hI.hTimer_future, hI.hit_timer⟩
      · intro sig hsig
        obtain ⟨hin, hne⟩ := List.mem_filter.mp hsig
        have hne' : sig.id ≠ x := by simpa using hne
        exact List.mem_erase_of_ne (by simp [hne']) |>.mpr
          (hI.sig_timer sig hin)
      · intro p hp
        exact hI.sTimer_future p (List.mem_of_mem_erase hp)
      · intro sig hsig
        exact hI.sig_past sig (List.mem_filter.mp hsig).1
      · intro sig hsig
        exact hI.sig_serial sig (List.mem_filter.mp hsig).1
  | callHit i =>
      dsimp only [applyStep]
      refine ⟨hI.sig_timer, hI.sTimer_future, hI.sig_past, hI.sig_serial,
        ?_, ?_⟩
      · intro p hp
        rcases List.mem_append.mp hp with h | h
        · exact hI.hTimer_future p h
        · simp only [List.mem_singleton] at h
          subst h
          simp only
          linarith
      · intro x hx
        simp only [setAdd] at hx
        split at hx
        · obtain ⟨ft, hft⟩ := hI.hit_timer x hx
          exact ⟨ft, List.mem_append_left _ hft⟩
        · rcases List.mem_append.mp hx with h | h
          · obtain ⟨ft, hft⟩ := hI.hit_timer x h
            exact ⟨ft, List.mem_append_left _ hft⟩
          · simp only [List.mem_singleton] at h
            subst h
            exact ⟨σ.now + 1 / 2, List.mem_append_right _ (by simp)⟩
  | fireHitTimer ft x =>
      obtain ⟨hmem, hft⟩ := hv
      dsimp only [applyStep]
      refine ⟨hI.sig_timer, hI.sTimer_future, hI.sig_past, hI.sig_serial,
        ?_, ?_⟩
      · intro p hp
        exact hI.hTimer_future p (List.mem_of_mem_erase hp)
      · intro y hy
        obtain ⟨hin, hne⟩ := List.mem_filter.mp hy
        have hne' : y ≠ x := by simpa using hne
        obtain ⟨ft', hft'⟩ := hI.hit_timer y hin
        exact ⟨ft', (List.mem_erase_of_ne (by simp [hne'])).mpr hft'⟩

/-- The invariant holds after any valid run. -/
theorem dinv_run : ∀ (l : List Step) (σ : DState), DInv σ → runValid σ l →
    DInv (execRun σ l) := by
  intro l
  induction l with
  | nil => intro σ h _; simpa [execRun] using h
  | cons s rest ih =>
      intro σ hI hv
      exact ih _ (dinv_step hI hv.1) hv.2

/-- Every reachable state satisfies the invariant. -/
theorem reachable_dinv {σ : DState} (h : Reachable σ) : DInv σ := by
  obtain ⟨l, hv, he⟩ := h
  exact he ▸ dinv_run l initState dinv_init hv

/- ------------------------------------------------------------------
Claim C3: signal lifetime. -/

/-- A signal that has left the collection (with a serial already used)
never reappears: emits only create fresh serials. -/
theorem signal_no_resurrection :
    ∀ (l : List Step) (σ : DState) (sig : Signal),
      sig.serial < σ.nextSerial → sig ∉ σ.signals →
      sig ∉ (execRun σ l).signals ∧
        sig.serial < (execRun σ l).nextSerial := by
  intro l
  induction l with
  | nil => intro σ sig h1 h2; exact ⟨h2, h1⟩
  | cons s rest ih =>
      intro σ sig h1 h2
      refine ih (applyStep σ s) sig ?_ ?_
      · cases s <;> dsimp only [applyStep] <;> omega
      · cases s with
        | advance t => exact h2
        | emit rect color draw =>
            dsimp only [applyStep]
            intro hmem
            rcases List.mem_append.mp hmem with h | h
            · exact h2 h
            · simp only [List.mem_singleton] at h
              subst h
              simp at h1
        | fireSignalTimer ft x =>
            dsimp only [applyStep]
            intro hmem
            exact h2 (List.mem_filter.mp hmem).1
        | callHit i => exact h2
        | fireHitTimer ft x => exact h2

/-- When the fired timer's id matches no other pending timer, a signal
it removes is removed exactly at its emission time + 2.5. -/
theorem signal_removal_time {σ : DState} (hI : DInv σ) {ft : ℚ} {x : ℕ}
    (hv : validStep σ (Step.fireSignalTimer ft x))
    (hnd : (σ.sTimers.map Prod.snd).Nodup)
    (sig : Signal) (hin : sig ∈ σ.signals)
    (hout : sig ∉ (applyStep σ (Step.fireSignalTimer ft x)).signals) :
    σ.now = sig.emitTime + 5 / 2 := by
  obtain ⟨hmem, hft⟩ := hv
  have hid : sig.id = x := by
    by_contra hne
    exact hout (by
      dsimp only [applyStep]
      exact List.mem_filter.mpr ⟨hin, by simpa using hne⟩)
  have htimer := hI.sig_timer sig hin
  have heq : (sig.emitTime + 5 / 2, sig.id) = (ft, x) :=
    List.inj_on_of_nodup_map hnd htimer hmem (by simpa using hid)
  have h1 : sig.emitTime + 5 / 2 = ft := congrArg Prod.fst heq
  exact (h1.trans hft).symm

/-- In a state with no pending signal timers every signal has been
removed (with the invariant, each active signal still has its timer). -/
theorem signals_empty_of_no_timers {σ : DState} (hI : DInv σ)
    (h : σ.sTimers = []) : σ.signals = [] := by
  rcases hn : σ.signals with _ | ⟨sig, rest⟩
  · rfl
  · have := hI.sig_timer sig (by rw [hn]; exact List.mem_cons_self sig rest)
    rw [h] at this
    exact absurd this (List.not_mem_nil _)

/-- Claim C3 (amended): in every reachable state each active signal is
at most 2.5 time-units old (and never negative); once every scheduled
removal has fired the collection is empty, so each emitted signal is
removed at least once; a removed signal never reappears, so it is
removed exactly once; and a removal fires exactly 2.5 time-units after
the removed signal's emission provided no other pending timer carries
the same identifier (random identifiers can collide; the unconditional
"no earlier than 2.5 after emission" of the claim fails then). -/
theorem signal_lifetime_bounds (σ : DState) (hσ : Reachable σ) :
    (∀ sig ∈ σ.signals,
      0 ≤ σ.now - sig.emitTime ∧ σ.now - sig.emitTime ≤ 5 / 2) ∧
    (σ.sTimers = [] → σ.signals = []) ∧
    (∀ l2 sig, sig.serial < σ.nextSerial → sig ∉ σ.signals →
      sig ∉ (execRun σ l2).signals) ∧
    (∀ ft x, validStep σ (Step.fireSignalTimer ft x) →
      (σ.sTimers.map Prod.snd).Nodup →
      ∀ sig ∈ σ.signals,
        sig ∉ (applyStep σ (Step.fireSignalTimer ft x)).signals →
        σ.now = sig.emitTime + 5 / 2) := by
  have hI := reachable_dinv hσ
  refine ⟨?_, signals_empty_of_no_timers hI, ?_, ?_⟩
  · intro sig hsig
    have h1 := hI.sig_past sig hsig
    have h2 := hI.sTimer_future _ (hI.sig_timer sig hsig)
    constructor
    · linarith
    · simp only at h2
      linarith
  · intro l2 sig hser hout
    exact (signal_no_resurrection l2 σ sig hser hout).1
  · intro ft x hv hnd sig hin hout
    exact signal_removal_time hI hv hnd sig hin hout

/-- A demonstration run: one emit, time advancing to 2.5, the removal
timer firing. -/
def lifetimeDemoRun : List Step :=
  [Step.emit ⟨0, 0, 0, 0⟩ "red" (1 / 7), Step.advance (5 / 2),
   Step.fireSignalTimer (5 / 2) (idOf (1 / 7))]

/-- Witness for the amended C3: after the demonstration run all timers
have fired and the active-signal collection is empty. -/
theorem signal_lifetime_bounds_witness :
    (execRun initState lifetimeDemoRun).signals = [] :=
  (signal_lifetime_bounds (execRun initState lifetimeDemoRun)
    ⟨lifetimeDemoRun, by decide, rfl⟩).2.1 (by decide)

/-- A run in which two emits draw the same random value (time 0 and
time 1), so both signals carry the same identifier. -/
def collisionRun : List Step :=
  [Step.emit ⟨0, 0, 0, 0⟩ "red" (1 / 7), Step.advance 1,
   Step.emit ⟨0, 0, 0, 0⟩ "blue" (1 / 7), Step.advance (5 / 2),
   Step.fireSignalTimer (5 / 2) (idOf (1 / 7))]

/-- Claim C3 as stated is false: when two overlapping signals draw the
same identifier, the first signal's removal timer (firing at 2.5)
removes the second signal as well, only 1.5 time-units after its
emission at time 1 — earlier than its 2.5 time-unit lifetime. -/
theorem signal_removed_early_on_collision :
    runValid initState collisionRun ∧
    (⟨1, 1, idOf (1 / 7), 0, 0, "blue"⟩ : Signal)
      ∈ (execRun initState (collisionRun.take 4)).signals ∧
    (⟨1, 1, idOf (1 / 7), 0, 0, "blue"⟩ : Signal)
      ∉ (execRun initState collisionRun).signals ∧
    (execRun initState (collisionRun.take 4)).now = 5 / 2 ∧
    (5 / 2 : ℚ) < 1 + 5 / 2 := by
  refine ⟨by decide, by decide, by decide, by decide, by decide⟩

/- ------------------------------------------------------------------
Claim C7: uniqueness of emitted identifiers. -/

/-- A run with two distinct emit calls drawing the same random value. -/
def duplicateIdRun : List Step :=
  [Step.emit ⟨0, 0, 0, 0⟩ "red" (1 / 7), Step.advance 1,
   Step.emit ⟨0, 0, 0, 0⟩ "blue" (1 / 7)]

/-- Claim C7 as stated is false: nothing makes the random identifier
fresh; two distinct emit calls drawing the same value produce the same
identifier, and the active-signal collection then holds two signals
with the same identifier. -/
theorem duplicate_identifier_in_collection :
    runValid initState duplicateIdRun ∧
    (execRun initState duplicateIdRun).signals.map Signal.id
      = [idOf (1 / 7), idOf (1 / 7)] ∧
    ¬ ((execRun initState duplicateIdRun).signals.map Signal.id).Nodup ∧
    (execRun initState duplicateIdRun).signals.length = 2 := by
  refine ⟨by decide, by decide, by decide, by decide⟩

/-- Nodup of active ids is preserved along any step list whose emit ids
avoid duplication with each other and with the current signals. -/
theorem signal_ids_nodup_aux :
    ∀ (l : List Step) (σ : DState),
      (σ.signals.map Signal.id ++ emitIds l).Nodup →
      ((execRun σ l).signals.map Signal.id).Nodup := by
  intro l
  induction l with
  | nil =>
      intro σ h
      simpa [emitIds, execRun] using h
  | cons s rest ih =>
      intro σ h
      refine ih (applyStep σ s) ?_
      cases s with
      | advance t => exact h
      | emit rect color draw =>
          dsimp only [applyStep]
          simp only [List.map_append, List.map_cons, List.map_nil] at h ⊢
          rw [List.append_assoc]
          simpa [emitIds] using h
      | fireSignalTimer ft x =>
          dsimp only [applyStep]
          refine List.Nodup.sublist ?_ h
          exact List.Sublist.append_right
            (List.Sublist.map Signal.id (List.filter_sublist _)) _
      | callHit i => exact h
      | fireHitTimer ft x => exact h

/-- Claim C7 (amended): if the random draws of the emit calls of a
session yield pairwise-distinct identifiers, then all active signals
carry pairwise-distinct identifiers, so the collection never holds two
signals with the same identifier; the code itself enforces no
freshness (see the collision counterexample). -/
theorem signal_ids_nodup_of_distinct_draws (l : List Step)
    (_hv : runValid initState l) (hnd : (emitIds l).Nodup) :
    ((execRun initState l).signals.map Signal.id).Nodup := by
  have := signal_ids_nodup_aux l initState (by simpa [initState] using hnd)
  exact this

/-- A run whose two draws yield distinct identifiers. -/
def distinctIdRun : List Step :=
  [Step.emit ⟨0, 0, 0, 0⟩ "red" (1 / 7), Step.advance 1,
   Step.emit ⟨0, 0, 0, 0⟩ "blue" (2 / 7)]

/-- Witness for the amended C7: with draws 1/7 and 2/7 the two active
signals carry distinct identifiers. -/
theorem signal_ids_nodup_of_distinct_draws_witness :
    ((execRun initState distinctIdRun).signals.map Signal.id).Nodup :=
  signal_ids_nodup_of_distinct_draws distinctIdRun (by decide) (by decide)

/- ------------------------------------------------------------------
Claim C9: the emitted signal's origin point. -/

/-- Claim C9: every emit appends one signal whose origin is the center
of the rect, (left + width/2, top + height/2), before any scroll offset;
the rect {left 100, top 100, width 20, height 20} yields (110, 110), and
a zero-area rect yields its own (degenerate) corner point. -/
theorem emit_origin_is_rect_center (σ : DState) (rect : Rect)
    (color : String) (draw : ℚ) :
    (applyStep σ (Step.emit rect color draw)).signals
      = σ.signals ++ [⟨σ.nextSerial, σ.now, idOf draw,
          rect.left + rect.width / 2, rect.top + rect.height / 2, color⟩] ∧
    emitOrigin ⟨100, 100, 20, 20⟩ = ⟨110, 110⟩ ∧
    emitOrigin ⟨5, 7, 0, 0⟩ = ⟨5, 7⟩ :=
  ⟨rfl, by decide, by decide⟩

/-- Witness for C9 at a concrete emit from the initial state. -/
theorem emit_origin_is_rect_center_witness :
    (applyStep initState (Step.emit ⟨100, 100, 20, 20⟩ "red" 0)).signals
      = [⟨0, 0, idOf 0, 110, 110, "red"⟩] := by
  rw [(emit_origin_is_rect_center initState ⟨100, 100, 20, 20⟩ "red" 0).1]
  decide

/- ------------------------------------------------------------------
Claim C4: the hit-state membership window. -/

/-- Erasing an element the filter rejects leaves the filter unchanged. -/
theorem filter_erase_of_not [BEq β] [LawfulBEq β] (p : β → Bool) (l : List β)
    (a : β) (h : p a = false) : (l.erase a).filter p = l.filter p := by
  induction l with
  | nil => rfl
  | cons b bs ih =>
      by_cases hb : b = a
      · subst hb
        simp [List.erase_cons, List.filter_cons, h]
      · have hba : (b == a) = false := by simpa using hb
        simp [List.erase_cons, hba, List.filter_cons, ih]

/-- Erasing an element the filter keeps commutes with the filter. -/
theorem filter_erase_of_pos [BEq β] [LawfulBEq β] (p : β → Bool) (l : List β)
    (a : β) (h : p a = true) : (l.erase a).filter p = (l.filter p).erase a := by
  induction l with
  | nil => rfl
  | cons b bs ih =>
      by_cases hb : b = a
      · subst hb
        simp [List.erase_cons, List.filter_cons, h]
      · have hba : (b == a) = false := by simpa using hb
        rcases hpb : p b with _ | _
        · simp [List.erase_cons, hba, List.filter_cons, hpb, ih]
        · simp [List.erase_cons, hba, List.filter_cons, hpb, ih]

/-- An element is in the set after `Set.add`. -/
theorem mem_setAdd_self [DecidableEq β] (l : List β) (b : β) :
    b ∈ setAdd l b := by
  unfold setAdd
  split
  · assumption
  · exact List.mem_append_right _ (List.mem_singleton_self b)

/-- While no `hitTarget(x)` call occurs, no removal timer for `x` is
pending and `x` stays out of the hit set. -/
theorem no_hit_before_call :
    ∀ (l : List Step) (σ : DState) (x : String),
      (∀ s ∈ l, s ≠ Step.callHit x) →
      (∀ p ∈ σ.hTimers, p.2 ≠ x) → x ∉ σ.hits →
      (∀ p ∈ (execRun σ l).hTimers, p.2 ≠ x) ∧
        x ∉ (execRun σ l).hits := by
  intro l
  induction l with
  | nil => intro σ x _ h1 h2; exact ⟨h1, h2⟩
  | cons s rest ih =>
      intro σ x hnc h1 h2
      refine ih (applyStep σ s) x (fun s' hs' => hnc s' (List.mem_cons_of_mem _ hs')) ?_ ?_
      · cases s with
        | advance t => exact h1
        | emit rect color draw => exact h1
        | fireSignalTimer ft y => exact h1
        | callHit i =>
            have hne : i ≠ x := fun he =>
              hnc (Step.callHit i) (List.mem_cons_self _ _) (by rw [he])
            dsimp only [applyStep]
            intro p hp
            rcases List.mem_append.mp hp with h | h
            · exact h1 p h
            · simp only [List.mem_singleton] at h
              subst h
              exact hne
        | fireHitTimer ft y =>
            dsimp only [applyStep]
            intro p hp
            exact h1 p (List.mem_of_mem_erase hp)
      · cases s with
        | advance t => exact h2
        | emit rect color draw => exact h2
        | fireSignalTimer ft y => exact h2
        | callHit i =>
            have hne : i ≠ x := fun he =>
              hnc (Step.callHit i) (List.mem_cons_self _ _) (by rw [he])
            dsimp only [applyStep]
            intro hx
            unfold setAdd at hx
            split at hx
            · exact h2 hx
            · rcases List.mem_append.mp hx with h | h
              · exact h2 h
              · simp only [List.mem_singleton] at h
                exact hne h.symm
        | fireHitTimer ft y =>
            dsimp only [applyStep]
            intro hx
            exact h2 (List.mem_filter.mp hx).1

/-- The phase of one hit identifier after its single `hitTarget` call at
time `t`: either the 0.5-unit removal timer is still pending, the id is
in the hit set and time is at most t + 0.5, or the timer has fired, the
id is gone and time is at least t + 0.5. -/
def HitPhase (t : ℚ) (x : String) (σ : DState) : Prop :=
  (σ.hTimers.filter (fun p => p.2 == x) = [(t + 1 / 2, x)] ∧
    x ∈ σ.hits ∧ σ.now ≤ t + 1 / 2) ∨
  (σ.hTimers.filter (fun p => p.2 == x) = [] ∧
    x ∉ σ.hits ∧ t + 1 / 2 ≤ σ.now)

/-- `HitPhase` is preserved by every valid step other than a second
`hitTarget` call for the same identifier. -/
theorem hitPhase_step {t : ℚ} {x : String} {σ : DState} {s : Step}
    (hp : HitPhase t x σ) (hv : validStep σ s) (hs : s ≠ Step.callHit x) :
    HitPhase t x (applyStep σ s) := by
  cases s with
  | advance u =>
      obtain ⟨hle, -, hh⟩ := hv
      rcases hp with ⟨hf, hm, hnow⟩ | ⟨hf, hm, hnow⟩
      · refine Or.inl ⟨hf, hm, ?_⟩
        have hmem : (t + 1 / 2, x) ∈ σ.hTimers := by
          apply List.mem_of_mem_filter (p := fun p => p.2 == x)
          rw [hf]
          exact List.mem_singleton_self _
        exact hh _ hmem
      · exact Or.inr ⟨hf, hm, le_trans hnow hle⟩
  | emit rect color draw => exact hp
  | fireSignalTimer ft y => exact hp
  | callHit i =>
      have hne : i ≠ x := fun he => hs (by rw [he])
      dsimp only [applyStep]
      rcases hp with ⟨hf, hm, hnow⟩ | ⟨hf, hm, hnow⟩
      · refine Or.inl ⟨?_, ?_, hnow⟩
        · rw [List.filter_append, hf]
          simp [hne]
        · unfold setAdd
          split
          · exact hm
          · exact List.mem_append_left _ hm
      · refine Or.inr ⟨?_, ?_, hnow⟩
        · rw [List.filter_append, hf]
          simp [hne]
        · intro hx
          unfold setAdd at hx
          split at hx
          · exact hm hx
          · rcases List.mem_append.mp hx with h | h
            · exact hm h
            · simp only [List.mem_singleton] at h
              exact hne h.symm
  | fireHitTimer ft y =>
      obtain ⟨hmem, hft⟩ := hv
      by_cases hy : y = x
      · rcases hp with ⟨hf, hm, hnow⟩ | ⟨hf, hm, hnow⟩
        · have hmemf : (ft, y) ∈ σ.hTimers.filter (fun p => p.2 == x) :=
            List.mem_filter.mpr ⟨hmem, by simp [hy]⟩
          rw [hf] at hmemf
          simp only [List.mem_singleton, Prod.mk.injEq] at hmemf
          obtain ⟨hfteq, hyeq⟩ := hmemf
          refine Or.inr ⟨?_, ?_, ?_⟩
          · show (σ.hTimers.erase (ft, y)).filter (fun p => p.2 == x) = []
            rw [filter_erase_of_pos _ _ _ (by simp [hy]), hf, hfteq, hyeq]
            simp
          · show x ∉ σ.hits.filter (fun z => z != y)
            intro hx
            have := (List.mem_filter.mp hx).2
            simp [hy] at this
          · show t + 1 / 2 ≤ σ.now
            rw [← hft, hfteq]
        · have hmemf : (ft, y) ∈ σ.hTimers.filter (fun p => p.2 == x) :=
            List.mem_filter.mpr ⟨hmem, by simp [hy]⟩
          rw [hf] at hmemf
          exact absurd hmemf (List.not_mem_nil _)
      · rcases hp with ⟨hf, hm, hnow⟩ | ⟨hf, hm, hnow⟩
        · refine Or.inl ⟨?_, ?_, hnow⟩
          · show (σ.hTimers.erase (ft, y)).filter (fun p => p.2 == x)
              = [(t + 1 / 2, x)]
            rw [filter_erase_of_not _ _ _ (by simp [hy]), hf]
          · show x ∈ σ.hits.filter (fun z => z != y)
            refine List.mem_filter.mpr ⟨hm, ?_⟩
            simp only [bne_iff_ne, ne_eq]
            exact fun h => hy h.symm
        · refine Or.inr ⟨?_, ?_, hnow⟩
          · show (σ.hTimers.erase (ft, y)).filter (fun p => p.2 == x) = []
            rw [filter_erase_of_not _ _ _ (by simp [hy]), hf]
          · show x ∉ σ.hits.filter (fun z => z != y)
            intro hx
            exact hm (List.mem_filter.mp hx).1

/-- `HitPhase` is preserved by any valid run free of further calls for
the identifier. -/
theorem hitPhase_run : ∀ (l : List Step) (σ : DState) {t : ℚ} {x : String},
    HitPhase t x σ → runValid σ l → (∀ s ∈ l, s ≠ Step.callHit x) →
    HitPhase t x (execRun σ l) := by
  intro l
  induction l with
  | nil => intro σ t x hp _ _; exact hp
  | cons s rest ih =>
      intro σ t x hp hv hnc
      exact ih (applyStep σ s)
        (hitPhase_step hp hv.1 (hnc s (List.mem_cons_self _ _))) hv.2
        (fun s' hs' => hnc s' (List.mem_cons_of_mem _ hs'))

/-- Claim C4 (amended): along a valid session containing exactly one
`hitTarget(x)` call, made at time t: the identifier is in Hit State
immediately after the call, remains there at every later state whose
time is below t + 0.5, and is absent at every state whose time is past
t + 0.5 (at exactly t + 0.5 the scheduled removal runs; once it has,
the id is absent).  The claim's weaker proviso — only "no second call
within the following 0.5 time-units" — is not enough, see the
counterexample with a second call 0.6 time-units later. -/
theorem hit_state_window (l1 l2 : List Step) (x : String)
    (hv : runValid initState (l1 ++ Step.callHit x :: l2))
    (h1 : ∀ s ∈ l1, s ≠ Step.callHit x)
    (h2 : ∀ s ∈ l2, s ≠ Step.callHit x) :
    x ∈ (execRun initState (l1 ++ [Step.callHit x])).hits ∧
    ∀ k,
      ((execRun initState (l1 ++ Step.callHit x :: l2.take k)).now
          < (execRun initState l1).now + 1 / 2 →
        x ∈ (execRun initState (l1 ++ Step.callHit x :: l2.take k)).hits) ∧
      ((execRun initState l1).now + 1 / 2
          < (execRun initState (l1 ++ Step.callHit x :: l2.take k)).now →
        x ∉ (execRun initState (l1 ++ Step.callHit x :: l2.take k)).hits) := by
  obtain ⟨hv1, hv2⟩ := (runValid_append l1 (Step.callHit x :: l2) initState).mp hv
  obtain ⟨-, hv3⟩ := hv2
  have hpre := no_hit_before_call l1 initState x h1
    (by intro p hp; simp [initState] at hp) (by simp [initState])
  have hmid : execRun initState (l1 ++ [Step.callHit x])
      = applyStep (execRun initState l1) (Step.callHit x) := by
    rw [execRun_append]
    rfl
  have hmemx : x ∈ (applyStep (execRun initState l1) (Step.callHit x)).hits := by
    dsimp only [applyStep]
    exact mem_setAdd_self _ x
  have hphase0 : HitPhase (execRun initState l1).now x
      (applyStep (execRun initState l1) (Step.callHit x)) := by
    refine Or.inl ⟨?_, hmemx, ?_⟩
    · show ((execRun initState l1).hTimers
          ++ [((execRun initState l1).now + 1 / 2, x)]).filter
            (fun p => p.2 == x)
        = [((execRun initState l1).now + 1 / 2, x)]
      rw [List.filter_append]
      have hnil : (execRun initState l1).hTimers.filter (fun p => p.2 == x)
          = [] := by
        rw [List.filter_eq_nil_iff]
        intro p hp
        simpa using hpre.1 p hp
      rw [hnil]
      simp
    · show (execRun initState l1).now ≤ (execRun initState l1).now + 1 / 2
      linarith
  refine ⟨by rw [hmid]; exact hmemx, ?_⟩
  intro k
  have hassoc : l1 ++ Step.callHit x :: l2.take k
      = (l1 ++ [Step.callHit x]) ++ l2.take k := by
    simp
  have hexec : execRun initState (l1 ++ Step.callHit x :: l2.take k)
      = execRun (applyStep (execRun initState l1) (Step.callHit x))
          (l2.take k) := by
    rw [hassoc, execRun_append, hmid]
  have hvk : runValid
      (applyStep (execRun initState l1) (Step.callHit x)) (l2.take k) :=
    runValid_take k l2 _ hv3
  have hnk : ∀ s ∈ l2.take k, s ≠ Step.callHit x :=
    fun s hs => h2 s (List.mem_of_mem_take hs)
  have hphase := hitPhase_run (l2.take k) _ hphase0 hvk hnk
  rw [hexec]
  constructor
  · intro hlt
    rcases hphase with ⟨-, hm, -⟩ | ⟨-, -, hge⟩
    · exact hm
    · linarith
  · intro hgt
    rcases hphase with ⟨-, -, hle⟩ | ⟨-, hm, -⟩
    · linarith
    · exact hm

/-- Demonstration context for the hit window: the call occurs at time 1,
its timer fires at 1.5, and time advances to 2. -/
def hitDemoPre : List Step := [Step.advance 1]

/-- The steps after the demonstration call. -/
def hitDemoPost : List Step :=
  [Step.advance (3 / 2), Step.fireHitTimer (3 / 2) "skill-0",
   Step.advance 2]

/-- Witness for the amended C4: after the call at time 1 and its
removal at 1.5, at time 2 the id "skill-0" is no longer in Hit State. -/
theorem hit_state_window_witness :
    "skill-0" ∉ (execRun initState
      (hitDemoPre ++ Step.callHit "skill-0" :: hitDemoPost.take 3)).hits :=
  ((hit_state_window hitDemoPre hitDemoPost "skill-0"
      (by decide) (by decide) (by decide)).2 3).2 (by decide)

/-- A run with hits for the same id at times 0 and 3/5: the second call
is NOT within 0.5 time-units of the first. -/
def flickerRun : List Step :=
  [Step.callHit "skill-0", Step.advance (1 / 2),
   Step.fireHitTimer (1 / 2) "skill-0", Step.advance (3 / 5),
   Step.callHit "skill-0"]

/-- Claim C4 as stated is false: with a first `hitTarget("skill-0")` at
time 0 and a second at time 3/5 (more than 0.5 later, so the claim's
proviso holds), the state at time 3/5 — which is at least 0.5 after the
first call — still contains the id, because the second call re-added
it.  Absence at every time ≥ 0.5 after a call needs the stronger
assumption that no other call for the id occurs at all. -/
theorem hit_present_after_half_unit :
    runValid initState flickerRun ∧
    (execRun initState flickerRun).now = 3 / 5 ∧
    (0 : ℚ) + 1 / 2 ≤ 3 / 5 ∧
    (1 / 2 : ℚ) < 3 / 5 - 0 ∧
    "skill-0" ∈ (execRun initState flickerRun).hits := by
  refine ⟨by decide, by decide, by decide, by decide, by decide⟩

/- ------------------------------------------------------------------
Terminal (Terminal.tsx handleCommand) and command palette
(VimCommandPalette.tsx handleSubmit). -/

/-- A terminal history line is an echoed input or an output. -/
inductive HistType where
  | input
  | output
deriving DecidableEq, Repr

/-- One line of the terminal history. -/
structure HistEntry where
  type : HistType
  content : String
deriving DecidableEq, Repr

/-- The application's theme values ('default' | 'silicon' | 'light'). -/
inductive ThemeVal where
  | default
  | silicon
  | light
deriving DecidableEq, Repr

/-- The effects of one terminal submission: the new history, the theme
change (if any), and whether a resume download was triggered. -/
structure TermResult where
  history : List HistEntry
  theme : Option ThemeVal
  downloaded : Bool
deriving DecidableEq, Repr

/-- JavaScript `String.prototype.trim`: strip whitespace from both
ends (structural model over the character list). -/
def jsTrim (s : String) : String :=
  ⟨((s.data.dropWhile Char.isWhitespace).reverse.dropWhile
      Char.isWhitespace).reverse⟩

/-- JavaScript `String.prototype.toLowerCase` (ASCII case folding, the
only case the command tables use). -/
def jsToLower (s : String) : String := ⟨s.data.map Char.toLower⟩

/-- Split a character list at whitespace characters (keeping empty
pieces, as `String.split` would). -/
def splitWsAux : List Char → List (List Char)
  | [] => [[]]
  | c :: cs =>
      let r := splitWsAux cs
      if c.isWhitespace then [] :: r
      else
        match r with
        | [] => [[c]]
        | t :: ts => (c :: t) :: ts

/-- `split(/\s+/)` on trimmed input: the whitespace-separated tokens
(empty pieces dropped, so runs of whitespace count once). -/
def tokenize (s : String) : List String :=
  ((splitWsAux s.data).filter (fun t => !t.isEmpty)).map (fun t => ⟨t⟩)

/-- The terminal's static COMMANDS table (Terminal.tsx). -/
def terminalCommands (cmd : String) : Option String :=
  if cmd = "help" then
    some "Available commands: help, whoami, skills, contact, clear, run_test, resume, theme [silicon|light|dark]"
  else if cmd = "whoami" then
    some "Mishat | Senior Design Verification Engineer @ Marvell Technology. Obsessed with zero bugs."
  else if cmd = "skills" then
    some "SystemVerilog, UVM, Python, Formal Verification, Verdi, DVE, C++"
  else if cmd = "contact" then
    some "Email: mishath@mun.ca | LinkedIn: in/mishathassan"
  else if cmd = "run_test" then
    some "Starting UVM Sequence...\nRunning test_soc_boot...\nWait for interrupt...\nTEST PASSED (Coverage: 100%)"
  else none

/-- Terminal.tsx `handleCommand`: empty or whitespace-only input returns
immediately; otherwise the trimmed input is tokenized, the first token
lowercased and dispatched: `clear` resets the history, `theme` with
argument silicon/dark/light changes the theme (anything else prints the
usage line), `resume` triggers a download, and any other first token is
looked up in the static table, falling back to
"bash: <cmd>: command not found".  Every non-clear branch echoes the
original input and appends one output line. -/
def terminalHandle (history : List HistEntry) (input : String) :
    TermResult :=
  if jsTrim input = "" then ⟨history, none, false⟩
  else
    let rawCmd := jsTrim input
    let args := tokenize rawCmd
    let cmd := jsToLower (args.headD "")
    let arg1 := (args.get? 1).map jsToLower
    if cmd = "clear" then ⟨[], none, false⟩
    else if cmd = "theme" then
      if arg1 = some "silicon" then
        ⟨history ++ [⟨HistType.input, input⟩,
          ⟨HistType.output,
            "SWITCHING TO RTL VIEW... GATE LEVEL PRIMITIVES EXPOSED."⟩],
         some ThemeVal.silicon, false⟩
      else if arg1 = some "dark" then
        ⟨history ++ [⟨HistType.input, input⟩,
          ⟨HistType.output, "REVERTING TO ABSTRACTION LAYER 0."⟩],
         some ThemeVal.default, false⟩
      else if arg1 = some "light" then
        ⟨history ++ [⟨HistType.input, input⟩,
          ⟨HistType.output,
            "ACTIVATING CLEAN ROOM PROTOCOLS... ILLUMINATION: 100%"⟩],
         some ThemeVal.light, false⟩
      else
        ⟨history ++ [⟨HistType.input, input⟩,
          ⟨HistType.output, "Usage: theme [silicon | light | dark]"⟩],
         none, false⟩
    else if cmd = "resume" then
      ⟨history ++ [⟨HistType.input, input⟩,
        ⟨HistType.output,
          "Initiating download sequence for Mishat_Hassan_Resume.txt..."⟩],
       none, true⟩
    else
      ⟨history ++ [⟨HistType.input, input⟩,
        ⟨HistType.output,
          (terminalCommands cmd).getD ("bash: " ++ cmd ++ ": command not found")⟩],
       none, false⟩

/-- Where a palette command scrolls to. -/
inductive ScrollDest where
  | top
  | bottom
  | element (anchor : String)
deriving DecidableEq, Repr

/-- The effects of one palette submission: the output line (if set), a
close of the overlay, a theme change, a scroll, a download. -/
structure PaletteResult where
  output : Option String
  closed : Bool
  theme : Option ThemeVal
  scroll : Option ScrollDest
  downloaded : Bool
deriving DecidableEq, Repr

/-- The palette's `theme` handler (also reached via `colorscheme` and
`colo`): silicon and light switch directly, dark OR default switch to
the default theme, anything else prints the usage line. -/
def paletteTheme (args : List String) : PaletteResult :=
  let theme := (args.get? 0).map jsToLower
  if theme = some "silicon" then
    ⟨some "SWITCHING TO RTL VIEW...", false, some ThemeVal.silicon,
     none, false⟩
  else if theme = some "light" then
    ⟨some "CLEAN ROOM MODE ACTIVATED", false, some ThemeVal.light,
     none, false⟩
  else if theme = some "dark" ∨ theme = some "default" then
    ⟨some "ABSTRACTION LAYER 0", false, some ThemeVal.default,
     none, false⟩
  else
    ⟨some "Usage: theme [dark|light|silicon]", false, none, none, false⟩

/-- The palette's COMMANDS table (VimCommandPalette.tsx): each handler's
effect on close/theme/scroll/download/output state. -/
def paletteExec (cmd : String) (args : List String) : PaletteResult :=
  if cmd = "help" then
    ⟨some "Commands: help, q, wq, theme [dark|light|silicon], colorscheme, top, $, contact, skills, resume",
     false, none, none, false⟩
  else if cmd = "q" ∨ cmd = "quit" ∨ cmd = "wq" ∨ cmd = "x" then
    ⟨none, true, none, none, false⟩
  else if cmd = "theme" ∨ cmd = "colorscheme" ∨ cmd = "colo" then
    paletteTheme args
  else if cmd = "top" ∨ cmd = "0" then
    ⟨none, true, none, some ScrollDest.top, false⟩
  else if cmd = "$" ∨ cmd = "bottom" then
    ⟨none, true, none, some ScrollDest.bottom, false⟩
  else if cmd = "contact" then
    ⟨none, true, none, some (ScrollDest.element "terminal"), false⟩
  else if cmd = "skills" then
    ⟨none, true, none, some (ScrollDest.element "coverage"), false⟩
  else if cmd = "resume" then
    ⟨some "Downloading resume...", false, none, none, true⟩
  else if cmd = "verification" then
    ⟨none, true, none, some (ScrollDest.element "verification"), false⟩
  else if cmd = "trace" then
    ⟨none, true, none, some (ScrollDest.element "trace"), false⟩
  else
    ⟨some ("E492: Not a command: " ++ cmd), false, none, none, false⟩

/-- VimCommandPalette.tsx `handleSubmit`: empty input closes the
palette; otherwise the trimmed input is tokenized, the first token
lowercased and looked up; unknown commands print
"E492: Not a command: <cmd>". -/
def paletteSubmit (input : String) : PaletteResult :=
  if jsTrim input = "" then ⟨none, true, none, none, false⟩
  else
    let parts := tokenize (jsTrim input)
    let cmd := jsToLower (parts.headD "")
    let args := parts.tail
    paletteExec cmd args

/- ------------------------------------------------------------------
Claims C8 and C10: the interpreters' behaviour. -/

/-- Claim C8 as stated is false on the recognized-set conjunct: the
terminal and the palette disagree on `theme default`.  The terminal
yields the usage message with no theme change (its recognized set is
only silicon/light/dark), while the palette accepts `default` and
switches to the default theme. -/
theorem theme_default_asymmetry :
    terminalHandle [] "theme default"
      = ⟨[⟨HistType.input, "theme default"⟩,
          ⟨HistType.output, "Usage: theme [silicon | light | dark]"⟩],
         none, false⟩ ∧
    paletteSubmit "theme default"
      = ⟨some "ABSTRACTION LAYER 0", false, some ThemeVal.default,
         none, false⟩ := by
  refine ⟨by decide, by decide⟩

/-- Claim C8 (amended): input is split on whitespace and the first
token dispatched case-insensitively; terminal "theme silicon" switches
the theme and appends the RTL-view line; the terminal's recognized
theme arguments are silicon, light and dark (dark maps to the default
theme; `default` itself yields the usage message there, while the
palette also accepts `default`); any unrecognized argument yields the
usage message; "bogus" yields "bash: bogus: command not found" in the
terminal and "E492: Not a command: bogus" in the palette, with no theme
change or other side effect. -/
theorem command_interpreters_behavior (h : List HistEntry) :
    terminalHandle h "theme silicon"
      = ⟨h ++ [⟨HistType.input, "theme silicon"⟩,
          ⟨HistType.output,
            "SWITCHING TO RTL VIEW... GATE LEVEL PRIMITIVES EXPOSED."⟩],
         some ThemeVal.silicon, false⟩ ∧
    terminalHandle h "theme light"
      = ⟨h ++ [⟨HistType.input, "theme light"⟩,
          ⟨HistType.output,
            "ACTIVATING CLEAN ROOM PROTOCOLS... ILLUMINATION: 100%"⟩],
         some ThemeVal.light, false⟩ ∧
    terminalHandle h "theme dark"
      = ⟨h ++ [⟨HistType.input, "theme dark"⟩,
          ⟨HistType.output, "REVERTING TO ABSTRACTION LAYER 0."⟩],
         some ThemeVal.default, false⟩ ∧
    terminalHandle h "theme neon"
      = ⟨h ++ [⟨HistType.input, "theme neon"⟩,
          ⟨HistType.output, "Usage: theme [silicon | light | dark]"⟩],
         none, false⟩ ∧
    terminalHandle h "bogus"
      = ⟨h ++ [⟨HistType.input, "bogus"⟩,
          ⟨HistType.output, "bash: bogus: command not found"⟩],
         none, false⟩ ∧
    terminalHandle h "  ThEmE   SILICON  "
      = ⟨h ++ [⟨HistType.input, "  ThEmE   SILICON  "⟩,
          ⟨HistType.output,
            "SWITCHING TO RTL VIEW... GATE LEVEL PRIMITIVES EXPOSED."⟩],
         some ThemeVal.silicon, false⟩ ∧
    paletteSubmit "theme silicon"
      = ⟨some "SWITCHING TO RTL VIEW...", false, some ThemeVal.silicon,
         none, false⟩ ∧
    paletteSubmit "bogus"
      = ⟨some "E492: Not a command: bogus", false, none, none, false⟩ ∧
    paletteSubmit "BOGUS"
      = ⟨some "E492: Not a command: bogus", false, none, none, false⟩ :=
  ⟨rfl, rfl, rfl, rfl, rfl, rfl, rfl, rfl, rfl⟩

/-- Witness for the amended C8 with an empty starting history. -/
theorem command_interpreters_behavior_witness :
    terminalHandle [] "theme silicon"
      = ⟨[⟨HistType.input, "theme silicon"⟩,
          ⟨HistType.output,
            "SWITCHING TO RTL VIEW... GATE LEVEL PRIMITIVES EXPOSED."⟩],
         some ThemeVal.silicon, false⟩ := by
  have h := (command_interpreters_behavior []).1
  simpa using h

/-- Claim C10: a submission whose input is empty or whitespace-only
returns immediately: the history is unchanged and no theme change or
download happens. -/
theorem empty_input_is_noop (h : List HistEntry) (input : String)
    (hempty : jsTrim input = "") :
    terminalHandle h input = ⟨h, none, false⟩ := by
  unfold terminalHandle
  rw [hempty]
  simp

/-- Witness for C10: three spaces trim to the empty string, and the
submission leaves the history as it was. -/
theorem empty_input_is_noop_witness :
    terminalHandle [⟨HistType.output, "MishatOS v2.0.0 [Senior Build]"⟩] "   "
      = ⟨[⟨HistType.output, "MishatOS v2.0.0 [Senior Build]"⟩],
         none, false⟩ :=
  empty_input_is_noop [⟨HistType.output, "MishatOS v2.0.0 [Senior Build]"⟩]
    "   " (by decide)
